import Mathlib

/-!
# Verification of the admission / scheduling layer of sub2api

Shallow embedding of the repository's concurrency-control core:

* the Slot Ledger Lua scripts (`acquireScript`, `getCountScript`) and the
  wait-queue Lua scripts (`incrementWaitScript`, `decrementWaitScript`,
  `getTotalWaitScript`) from `internal/repository` (Redis sorted sets,
  hashes and string counters are modelled as association lists / total
  functions; the store's `TIME` result is passed in as the `now` argument);
* the circuit breaker (`internal/service/circuit_breaker.go`), with Go's
  `time.Time` / `time.Duration` modelled as integer seconds;
* the atomic scheduler (`internal/service/atomic_scheduler.go` together
  with `atomic_select.lua`), with the script's `math.random()` draws
  passed in as an explicit jitter function and Lua's floating-point score
  arithmetic modelled over `ℚ`.

Key TTLs set with `EXPIRE` only bound the lifetime of whole keys between
calls; except for the slot set's own TTL (recorded in `SlotSet.keyTTL`)
they are not part of the modelled state.
-/

/-! ## Association-list primitives

Redis sorted sets (member ↦ score) and hashes (field ↦ value) are modelled
as association lists without duplicate keys.  `ZADD`/`HSET` update in place
when the key is present and append otherwise, so key-uniqueness is
preserved by construction. -/

def alookup {α β : Type} [DecidableEq α] (l : List (α × β)) (k : α) : Option β :=
  (l.find? (fun m => m.1 = k)).map (·.2)

def aset {α β : Type} [DecidableEq α] (l : List (α × β)) (k : α) (v : β) : List (α × β) :=
  if l.any (fun m => m.1 = k) then
    l.map (fun m => if m.1 = k then (k, v) else m)
  else
    l ++ [(k, v)]

def aerase {α β : Type} [DecidableEq α] (l : List (α × β)) (k : α) : List (α × β) :=
  l.filter (fun m => m.1 ≠ k)

def akeys {α β : Type} (l : List (α × β)) : List α := l.map (·.1)

/-- Sum of the values of an association list (used for `HVALS` + sum). -/
def sumVals {α : Type} (l : List (α × Int)) : Int := (l.map (·.2)).sum

theorem alookup_nil {α β : Type} [DecidableEq α] (k : α) :
    alookup ([] : List (α × β)) k = none := rfl

theorem alookup_cons {α β : Type} [DecidableEq α] (m : α × β) (l : List (α × β)) (k : α) :
    alookup (m :: l) k = if m.1 = k then some m.2 else alookup l k := by
  by_cases h : m.1 = k <;> simp [alookup, List.find?_cons, h]

theorem alookup_eq_none_iff {α β : Type} [DecidableEq α] (l : List (α × β)) (k : α) :
    alookup l k = none ↔ ∀ m ∈ l, m.1 ≠ k := by
  induction l with
  | nil => simp [alookup_nil]
  | cons m l ih =>
    rw [alookup_cons]
    by_cases h : m.1 = k <;> simp [h, ih]

theorem alookup_aerase {α β : Type} [DecidableEq α] (l : List (α × β)) (k k' : α) :
    alookup (aerase l k) k' = if k' = k then none else alookup l k' := by
  induction l with
  | nil => simp [aerase, alookup_nil]
  | cons m l ih =>
    by_cases hmk : m.1 = k
    · by_cases hk : k' = k
      · simp_all [aerase, alookup_cons, List.filter_cons]
      · have hkk : ¬ (k = k') := fun h => hk h.symm
        simp_all [aerase, alookup_cons, List.filter_cons]
    · by_cases hmk' : m.1 = k' <;> by_cases hk : k' = k <;>
        simp_all [aerase, alookup_cons, List.filter_cons]

theorem alookup_mem {α β : Type} [DecidableEq α] {l : List (α × β)} {k : α} {v : β}
    (h : alookup l k = some v) : (k, v) ∈ l := by
  unfold alookup at h
  rcases Option.map_eq_some'.mp h with ⟨m, hfind, hv⟩
  have hmem := List.mem_of_find?_eq_some hfind
  have hkey := List.find?_some hfind
  simp only [decide_eq_true_eq] at hkey
  cases m
  simp_all

theorem mem_aerase {α β : Type} [DecidableEq α] {l : List (α × β)} {k : α} {m : α × β}
    (h : m ∈ aerase l k) : m ∈ l := (List.mem_filter.mp h).1

theorem mem_aset {α β : Type} [DecidableEq α] {l : List (α × β)} {k : α} {v : β} {m : α × β}
    (h : m ∈ aset l k v) : m ∈ l ∨ m = (k, v) := by
  unfold aset at h
  by_cases hany : l.any (fun m => m.1 = k)
  · rw [if_pos hany] at h
    rcases List.mem_map.mp h with ⟨p, hp, hm⟩
    by_cases hpk : p.1 = k
    · right; rw [if_pos hpk] at hm; exact hm.symm
    · left; rw [if_neg hpk] at hm; exact hm ▸ hp
  · rw [if_neg hany] at h
    rcases List.mem_append.mp h with h | h
    · exact Or.inl h
    · simp at h; exact Or.inr h

theorem aset_cons_of_ne {α β : Type} [DecidableEq α] (m : α × β) (l : List (α × β))
    (k : α) (v : β) (h : m.1 ≠ k) : aset (m :: l) k v = m :: aset l k v := by
  by_cases hany : l.any (fun m => m.1 = k) <;>
    simp [aset, List.any_cons, h, hany]

theorem aset_of_absent {α β : Type} [DecidableEq α] (l : List (α × β)) (k : α) (v : β)
    (h : ∀ m ∈ l, m.1 ≠ k) : aset l k v = l ++ [(k, v)] := by
  have hany : l.any (fun m => m.1 = k) = false := by
    simp only [List.any_eq_false, decide_eq_true_eq]
    exact h
  simp [aset, hany]

theorem alookup_absent {α β : Type} [DecidableEq α] (l : List (α × β)) (k : α)
    (h : ∀ m ∈ l, m.1 ≠ k) : alookup l k = none :=
  (alookup_eq_none_iff l k).mpr h

theorem alookup_aset_self {α β : Type} [DecidableEq α] (l : List (α × β)) (k : α) (v : β) :
    alookup (aset l k v) k = some v := by
  induction l with
  | nil => simp [aset, alookup_cons]
  | cons m l ih =>
    by_cases hmk : m.1 = k
    · have hany : (m :: l).any (fun p => p.1 = k) = true := by
        simp [List.any_cons, hmk]
      simp only [aset, hany, if_true, List.map_cons, if_pos hmk]
      rw [alookup_cons]
      simp
    · rw [aset_cons_of_ne m l k v hmk, alookup_cons, if_neg hmk]
      exact ih

theorem alookup_map_update_of_ne {α β : Type} [DecidableEq α] (l : List (α × β))
    (k k' : α) (v : β) (h : k' ≠ k) :
    alookup (l.map (fun p => if p.1 = k then (k, v) else p)) k' = alookup l k' := by
  induction l with
  | nil => rfl
  | cons m l ih =>
    by_cases hmk : m.1 = k
    · rw [List.map_cons, if_pos hmk, alookup_cons, alookup_cons]
      have hk' : ¬ (k = k') := fun hh => h hh.symm
      rw [if_neg hk', if_neg (hmk ▸ hk' : ¬ (m.1 = k')), ih]
    · rw [List.map_cons, if_neg hmk, alookup_cons, alookup_cons, ih]

theorem alookup_aset_of_ne {α β : Type} [DecidableEq α] (l : List (α × β)) (k k' : α) (v : β)
    (h : k' ≠ k) : alookup (aset l k v) k' = alookup l k' := by
  unfold aset
  by_cases hany : l.any (fun m => m.1 = k)
  · rw [if_pos hany]
    exact alookup_map_update_of_ne l k k' v h
  · rw [if_neg hany]
    induction l with
    | nil =>
      rw [List.nil_append, alookup_cons, if_neg (fun hh => h hh.symm)]
    | cons m l ih =>
      rw [List.cons_append, alookup_cons, alookup_cons]
      by_cases hmk' : m.1 = k'
      · simp [hmk']
      · rw [if_neg hmk', if_neg hmk']
        exact ih (by simp_all [List.any_cons])

theorem sumVals_nil {α : Type} : sumVals ([] : List (α × Int)) = 0 := rfl

theorem sumVals_cons {α : Type} (m : α × Int) (l : List (α × Int)) :
    sumVals (m :: l) = m.2 + sumVals l := by simp [sumVals]

theorem sumVals_append {α : Type} (l l' : List (α × Int)) :
    sumVals (l ++ l') = sumVals l + sumVals l' := by simp [sumVals]

theorem alookup_none_of_key_not_mem {α β : Type} [DecidableEq α] {l : List (α × β)} {k : α}
    (h : k ∉ akeys l) : alookup l k = none := by
  apply alookup_absent
  intro m hm hk
  exact h (hk ▸ List.mem_map_of_mem (·.1) hm)

theorem map_update_of_absent {α β : Type} [DecidableEq α] (l : List (α × β)) (k : α) (v : β)
    (h : ∀ m ∈ l, m.1 ≠ k) :
    l.map (fun p => if p.1 = k then (k, v) else p) = l := by
  induction l with
  | nil => rfl
  | cons m l ih =>
    rw [List.map_cons, if_neg (h m (List.mem_cons_self m l)),
      ih (fun p hp => h p (List.mem_cons_of_mem m hp))]

theorem sumVals_aerase {α : Type} [DecidableEq α] (l : List (α × Int)) (k : α)
    (h : (akeys l).Nodup) :
    sumVals (aerase l k) = sumVals l - (alookup l k).getD 0 := by
  induction l with
  | nil => simp [aerase, sumVals_nil, alookup_nil]
  | cons m l ih =>
    rw [akeys, List.map_cons, List.nodup_cons] at h
    obtain ⟨hnotmem, hnodup⟩ := h
    by_cases hmk : m.1 = k
    · have hlook : alookup l k = none :=
        alookup_none_of_key_not_mem (hmk ▸ hnotmem)
      have herase : aerase (m :: l) k = aerase l k := by
        simp [aerase, List.filter_cons, hmk]
      rw [herase, ih hnodup, hlook, alookup_cons, if_pos hmk, sumVals_cons]
      simp
    · have herase : aerase (m :: l) k = m :: aerase l k := by
        simp [aerase, List.filter_cons, hmk]
      rw [herase, sumVals_cons, ih hnodup, alookup_cons, if_neg hmk, sumVals_cons]
      ring

theorem sumVals_aset {α : Type} [DecidableEq α] (l : List (α × Int)) (k : α) (v : Int)
    (h : (akeys l).Nodup) :
    sumVals (aset l k v) = sumVals l - (alookup l k).getD 0 + v := by
  induction l with
  | nil => simp [aset, sumVals_cons, sumVals_nil, alookup_nil]
  | cons m l ih =>
    rw [akeys, List.map_cons, List.nodup_cons] at h
    obtain ⟨hnotmem, hnodup⟩ := h
    by_cases hmk : m.1 = k
    · have habsent : ∀ p ∈ l, p.1 ≠ k := by
        intro p hp hpk
        exact hnotmem (hmk ▸ hpk ▸ List.mem_map_of_mem (·.1) hp)
      have hany : (m :: l).any (fun p => p.1 = k) = true := by
        simp [List.any_cons, hmk]
      simp only [aset, hany, if_true, List.map_cons, if_pos hmk,
        map_update_of_absent l k v habsent]
      rw [sumVals_cons, sumVals_cons, alookup_cons, if_pos hmk]
      simp only [Option.getD_some]
      ring
    · rw [aset_cons_of_ne m l k v hmk, sumVals_cons, sumVals_cons, ih hnodup,
        alookup_cons, if_neg hmk]
      ring

theorem akeys_aerase_nodup {α β : Type} [DecidableEq α] {l : List (α × β)} {k : α}
    (h : (akeys l).Nodup) : (akeys (aerase l k)).Nodup := by
  unfold akeys aerase
  exact h.sublist (List.Sublist.map _ (List.filter_sublist l))

theorem akeys_aset_nodup {α β : Type} [DecidableEq α] {l : List (α × β)} {k : α} {v : β}
    (h : (akeys l).Nodup) : (akeys (aset l k v)).Nodup := by
  unfold aset
  by_cases hany : l.any (fun m => m.1 = k)
  · rw [if_pos hany]
    have : akeys (l.map (fun p => if p.1 = k then (k, v) else p)) = akeys l := by
      unfold akeys
      rw [List.map_map]
      apply List.map_congr_left
      intro p _
      by_cases hpk : p.1 = k <;> simp [Function.comp, hpk]
    rwa [this]
  · rw [if_neg hany]
    have hnot : k ∉ akeys l := by
      intro hk
      rcases List.mem_map.mp hk with ⟨p, hp, hpk⟩
      simp only [List.any_eq_true, decide_eq_true_eq] at hany
      exact hany ⟨p, hp, hpk⟩
    unfold akeys
    rw [List.map_append]
    simp only [List.nodup_append, List.map_cons, List.map_nil]
    refine ⟨h, by simp, ?_⟩
    intro x hx hx'
    simp only [List.mem_cons, List.not_mem_nil, or_false] at hx'
    exact hnot (hx' ▸ hx)

/-! ## Slot Ledger (`acquireScript` / `getCountScript` in `internal/repository`)

One Redis sorted set per scope key (`concurrency:account:{id}` /
`concurrency:user:{id}`): members are holder tokens (request IDs), scores
the acquisition timestamps taken from the store's `TIME`.  The set's own
TTL, refreshed by `EXPIRE`, is recorded in `keyTTL` (in seconds). -/

structure SlotSet where
  members : List (String × Int)
  keyTTL : Option Int
deriving DecidableEq

def emptySlotSet : SlotSet := ⟨[], none⟩

/-- `ZREMRANGEBYSCORE key -inf (now - ttl)`: drop members whose score is
`≤ now - ttl`. -/
def zremExpired (ttl now : Int) (members : List (String × Int)) : List (String × Int) :=
  members.filter (fun m => now - ttl < m.2)

/-- The Slot Ledger acquire script: sweep expired members, refresh an
already-held token, otherwise add the token when the live count is below
`maxConcurrency`.  Returns whether the slot was granted together with the
updated set. -/
def acquireScript (ss : SlotSet) (maxConcurrency ttl : Int) (requestID : String)
    (now : Int) : Bool × SlotSet :=
  let swept := zremExpired ttl now ss.members
  match alookup swept requestID with
  | some _ => (true, ⟨aset swept requestID now, some ttl⟩)
  | none =>
    if (swept.length : Int) < maxConcurrency then
      (true, ⟨aset swept requestID now, some ttl⟩)
    else
      (false, ⟨swept, ss.keyTTL⟩)

/-- The Slot Ledger count script: sweep expired members, return `ZCARD`. -/
def getCountScript (ss : SlotSet) (ttl now : Int) : Nat × SlotSet :=
  let swept := zremExpired ttl now ss.members
  (swept.length, ⟨swept, ss.keyTTL⟩)

/-- `ReleaseAccountSlot` / `ReleaseUserSlot`: a plain `ZREM`. -/
def releaseSlot (ss : SlotSet) (requestID : String) : SlotSet :=
  { ss with members := aerase ss.members requestID }

/-- A sequence of acquire calls against one scope with a common store
timestamp (the claim's "no expiry or release in between"); returns
(number granted, number denied, final set). -/
def acquireMany (ss : SlotSet) (maxConcurrency ttl : Int) (tokens : List String)
    (now : Int) : Nat × Nat × SlotSet :=
  match tokens with
  | [] => (0, 0, ss)
  | t :: ts =>
    let r := acquireScript ss maxConcurrency ttl t now
    let rest := acquireMany r.2 maxConcurrency ttl ts now
    if r.1 then (rest.1 + 1, rest.2.1, rest.2.2) else (rest.1, rest.2.1 + 1, rest.2.2)

theorem mem_zremExpired {ttl now : Int} {l : List (String × Int)} {m : String × Int}
    (h : m ∈ zremExpired ttl now l) : m ∈ l ∧ now - ttl < m.2 := by
  have := List.mem_filter.mp h
  simpa using this

theorem zremExpired_of_live {ttl now : Int} {l : List (String × Int)}
    (h : ∀ m ∈ l, now - ttl < m.2) : zremExpired ttl now l = l := by
  unfold zremExpired
  rw [List.filter_eq_self]
  intro m hm
  simpa using h m hm

theorem any_key_of_alookup_some {α β : Type} [DecidableEq α] {l : List (α × β)} {k : α} {v : β}
    (h : alookup l k = some v) : l.any (fun m => m.1 = k) = true := by
  have hmem := alookup_mem h
  simp only [List.any_eq_true, decide_eq_true_eq]
  exact ⟨(k, v), hmem, rfl⟩

theorem aset_length_of_present {α β : Type} [DecidableEq α] {l : List (α × β)} {k : α} {v : β}
    (h : l.any (fun m => m.1 = k) = true) : (aset l k v).length = l.length := by
  unfold aset
  rw [if_pos h, List.length_map]

theorem acquireMany_spec (N : Nat) (ttl now : Int) (tokens : List String) :
    ∀ ss : SlotSet,
    0 < ttl →
    tokens.Nodup →
    (∀ m ∈ ss.members, now - ttl < m.2) →
    (∀ t ∈ tokens, ∀ m ∈ ss.members, m.1 ≠ t) →
    ss.members.length ≤ N →
    (acquireMany ss (N : Int) ttl tokens now).1 =
        min tokens.length (N - ss.members.length) ∧
    (acquireMany ss (N : Int) ttl tokens now).2.1 =
        tokens.length - min tokens.length (N - ss.members.length) ∧
    (acquireMany ss (N : Int) ttl tokens now).2.2.members.length =
        min (ss.members.length + tokens.length) N ∧
    (∀ m ∈ (acquireMany ss (N : Int) ttl tokens now).2.2.members, now - ttl < m.2) := by
  induction tokens with
  | nil =>
    intro ss httl _ hlive _ hlen
    refine ⟨by simp [acquireMany], by simp [acquireMany], ?_, ?_⟩
    · simp only [acquireMany, List.length_nil]
      omega
    · simpa [acquireMany] using hlive
  | cons t ts ih =>
    intro ss httl hnodup hlive hfresh hlen
    rw [List.nodup_cons] at hnodup
    obtain ⟨htts, hnodup⟩ := hnodup
    have hswept : zremExpired ttl now ss.members = ss.members :=
      zremExpired_of_live hlive
    have hnone : alookup ss.members t = none :=
      alookup_absent _ _ (fun m hm => hfresh t (List.mem_cons_self t ts) m hm)
    by_cases hcap : ss.members.length < N
    · -- grant: the fresh token is appended to the set
      set ss' : SlotSet := ⟨ss.members ++ [(t, now)], some ttl⟩ with hss'
      have hbranch : acquireScript ss (N : Int) ttl t now = (true, ss') := by
        simp only [acquireScript, hswept, hnone]
        rw [if_pos (by exact_mod_cast hcap)]
        rw [aset_of_absent _ _ _ (fun m hm => hfresh t (List.mem_cons_self t ts) m hm)]
      have hlive' : ∀ m ∈ ss'.members, now - ttl < m.2 := by
        intro m hm
        rcases List.mem_append.mp hm with hm | hm
        · exact hlive m hm
        · simp only [List.mem_singleton] at hm
          subst hm; simpa using httl
      have hfresh' : ∀ u ∈ ts, ∀ m ∈ ss'.members, m.1 ≠ u := by
        intro u hu m hm
        rcases List.mem_append.mp hm with hm | hm
        · exact hfresh u (List.mem_cons_of_mem t hu) m hm
        · simp only [List.mem_singleton] at hm
          subst hm
          intro hc
          rw [← (hc : t = u)] at hu
          exact htts hu
      have hlen' : ss'.members.length ≤ N := by
        simp only [hss', List.length_append, List.length_singleton]
        omega
      have hrec := ih ss' httl hnodup hlive' hfresh' hlen'
      have hunfold : acquireMany ss (N : Int) ttl (t :: ts) now =
          ((acquireMany ss' (N : Int) ttl ts now).1 + 1,
           (acquireMany ss' (N : Int) ttl ts now).2.1,
           (acquireMany ss' (N : Int) ttl ts now).2.2) := by
        simp only [acquireMany, hbranch, if_true]
      rw [hunfold]
      obtain ⟨hg, hd, hl, hs⟩ := hrec
      have hlenss' : ss'.members.length = ss.members.length + 1 := by
        simp [hss']
      refine ⟨?_, ?_, ?_, hs⟩
      · rw [hg, hlenss']; simp only [List.length_cons]; omega
      · rw [hd, hlenss']; simp only [List.length_cons]; omega
      · rw [hl, hlenss']; simp only [List.length_cons]; omega
    · -- deny: the set is already at capacity
      have hbranch : acquireScript ss (N : Int) ttl t now = (false, ss) := by
        simp only [acquireScript, hswept, hnone]
        rw [if_neg (by exact_mod_cast hcap)]
      have hfreshts : ∀ u ∈ ts, ∀ m ∈ ss.members, m.1 ≠ u :=
        fun u hu => hfresh u (List.mem_cons_of_mem t hu)
      have hrec := ih ss httl hnodup hlive hfreshts hlen
      have hunfold : acquireMany ss (N : Int) ttl (t :: ts) now =
          ((acquireMany ss (N : Int) ttl ts now).1,
           (acquireMany ss (N : Int) ttl ts now).2.1 + 1,
           (acquireMany ss (N : Int) ttl ts now).2.2) := by
        simp only [acquireMany, hbranch]
        simp
      rw [hunfold]
      obtain ⟨hg, hd, hl, hs⟩ := hrec
      have hNk : ss.members.length = N := by omega
      refine ⟨?_, ?_, ?_, hs⟩
      · rw [hg, hNk]; simp only [List.length_cons]; omega
      · rw [hd, hNk]; simp only [List.length_cons]; omega
      · rw [hl, hNk]; simp only [List.length_cons]; omega

/-- C1: Slot Ledger capacity.  For a scope configured with
`maxConcurrency = N`, issuing `M > N` acquire calls with `M` distinct
holder tokens (no expiry or release in between: a common store timestamp
and a positive TTL) yields exactly `N` grants and `M - N` denials, and
afterwards the count script reports `N`. -/
theorem slotLedger_capacity (N M : Nat) (ttl now : Int) (tokens : List String)
    (httl : 0 < ttl) (hnodup : tokens.Nodup) (hlen : tokens.length = M) (hMN : N < M) :
    (acquireMany emptySlotSet (N : Int) ttl tokens now).1 = N ∧
    (acquireMany emptySlotSet (N : Int) ttl tokens now).2.1 = M - N ∧
    (getCountScript (acquireMany emptySlotSet (N : Int) ttl tokens now).2.2 ttl now).1
      = N := by
  have h := acquireMany_spec N ttl now tokens emptySlotSet httl hnodup
    (by simp [emptySlotSet]) (by simp [emptySlotSet]) (by simp [emptySlotSet])
  obtain ⟨hg, hd, hl, hs⟩ := h
  subst hlen
  refine ⟨?_, ?_, ?_⟩
  · rw [hg]; simp only [emptySlotSet, List.length_nil]; omega
  · rw [hd]; simp only [emptySlotSet, List.length_nil]; omega
  · simp only [getCountScript, zremExpired_of_live hs]
    rw [hl]; simp only [emptySlotSet, List.length_nil]; omega

theorem slotLedger_capacity_witness :
    0 < (60 : Int) ∧
    (acquireMany emptySlotSet ((3 : Nat) : Int) 60 ["a", "b", "c", "d", "e"] 100).1 = 3 ∧
    (acquireMany emptySlotSet ((3 : Nat) : Int) 60 ["a", "b", "c", "d", "e"] 100).2.1 = 2 ∧
    (getCountScript
      (acquireMany emptySlotSet ((3 : Nat) : Int) 60 ["a", "b", "c", "d", "e"] 100).2.2
      60 100).1 = 3 :=
  ⟨by decide,
   slotLedger_capacity 3 5 60 100 ["a", "b", "c", "d", "e"]
     (by decide) (by decide) (by decide) (by decide)⟩

/-- C7: re-acquire idempotence.  If the holder token is a live
(non-expired) member of the scope's set, a further acquire with the same
token is granted, leaves the live count unchanged, refreshes the member's
timestamp to `now`, and refreshes the set's own TTL — it never creates a
duplicate or double-counts. -/
theorem slotLedger_reacquire (ss : SlotSet) (maxC ttl now s : Int) (t : String)
    (httl : 0 < ttl)
    (hlive : alookup (zremExpired ttl now ss.members) t = some s) :
    (acquireScript ss maxC ttl t now).1 = true ∧
    (getCountScript (acquireScript ss maxC ttl t now).2 ttl now).1 =
      (getCountScript ss ttl now).1 ∧
    alookup (acquireScript ss maxC ttl t now).2.members t = some now ∧
    (acquireScript ss maxC ttl t now).2.keyTTL = some ttl := by
  have hbranch : acquireScript ss maxC ttl t now =
      (true, ⟨aset (zremExpired ttl now ss.members) t now, some ttl⟩) := by
    simp only [acquireScript, hlive]
  rw [hbranch]
  refine ⟨rfl, ?_, alookup_aset_self _ _ _, rfl⟩
  have hall : ∀ m ∈ aset (zremExpired ttl now ss.members) t now, now - ttl < m.2 := by
    intro m hm
    rcases mem_aset hm with hm | hm
    · exact (mem_zremExpired hm).2
    · subst hm; simpa using httl
  simp only [getCountScript, zremExpired_of_live hall]
  exact aset_length_of_present (any_key_of_alookup_some hlive)

theorem slotLedger_reacquire_witness :
    0 < (60 : Int) ∧
    alookup (zremExpired 60 120 (SlotSet.members ⟨[("a", 100)], some 60⟩)) "a" = some 100 ∧
    (acquireScript ⟨[("a", 100)], some 60⟩ 1 60 "a" 120).1 = true ∧
    (getCountScript (acquireScript ⟨[("a", 100)], some 60⟩ 1 60 "a" 120).2 60 120).1 =
      (getCountScript ⟨[("a", 100)], some 60⟩ 60 120).1 ∧
    alookup (acquireScript ⟨[("a", 100)], some 60⟩ 1 60 "a" 120).2.members "a" = some 120 ∧
    (acquireScript ⟨[("a", 100)], some 60⟩ 1 60 "a" 120).2.keyTTL = some 60 :=
  ⟨by decide, by decide,
   slotLedger_reacquire ⟨[("a", 100)], some 60⟩ 1 60 120 100 "a" (by decide) (by decide)⟩

/-! ## Wait-Queue Ledger (`incrementWaitScript` / `decrementWaitScript` /
`getTotalWaitScript` in `internal/repository`)

Three cooperating keys: a global integer total (`concurrency:wait:total`,
`none` when the key is absent), a sorted set user ↦ last-update time
(`concurrency:wait:updated`) and a hash user ↦ wait count
(`concurrency:wait:counts`).  `ZRANGEBYSCORE ... LIMIT 0 n` is modelled as
the first `n` expired entries in list order. -/

structure WaitState where
  total : Option Int
  updated : List (String × Int)
  counts : List (String × Int)
deriving DecidableEq

def initialWaitState : WaitState := ⟨none, [], []⟩

/-- `SETNX totalKey 0`. -/
def setnxTotal (st : WaitState) : WaitState :=
  { st with total := some (st.total.getD 0) }

/-- The bounded cleanup sweep shared by the three wait-queue scripts:
for each of (up to `cleanupLimit`) users whose last activity is
`≤ now - ttl`, decrement the global total by that user's count (when
positive) and delete the user from both the hash and the sorted set. -/
def waitSweepStep (s : WaitState) (uid : String) : WaitState :=
  let c := (alookup s.counts uid).getD 0
  { total := if 0 < c then s.total.map (· - c) else s.total
    updated := aerase s.updated uid
    counts := aerase s.counts uid }

def waitSweep (ttl now : Int) (cleanupLimit : Nat) (st : WaitState) : WaitState :=
  let expired :=
    ((st.updated.filter (fun m => m.2 ≤ now - ttl)).take cleanupLimit).map (·.1)
  expired.foldl waitSweepStep st

/-- `incrementWaitScript`: `SETNX`, bounded sweep, then admit the user
(incrementing their count, touching their activity time and the global
total) iff their current count is below `maxWait`. -/
def incrementWaitScript (st : WaitState) (userID : String) (maxWait ttl : Int)
    (cleanupLimit : Nat) (now : Int) : Bool × WaitState :=
  let st2 := waitSweep ttl now cleanupLimit (setnxTotal st)
  let current := (alookup st2.counts userID).getD 0
  if maxWait ≤ current then
    (false, st2)
  else
    (true,
     { total := st2.total.map (· + 1)
       updated := aset st2.updated userID now
       counts := aset st2.counts userID (current + 1) })

/-- `decrementWaitScript`: `SETNX`, bounded sweep, then decrement the
user's count (deleting the user entirely when it reaches zero) and the
global total; a user at zero/absent is left untouched. -/
def decrementWaitScript (st : WaitState) (userID : String) (ttl : Int)
    (cleanupLimit : Nat) (now : Int) : WaitState :=
  let st2 := waitSweep ttl now cleanupLimit (setnxTotal st)
  let current := (alookup st2.counts userID).getD 0
  if current ≤ 0 then
    st2
  else if current - 1 ≤ 0 then
    { total := st2.total.map (· - 1)
      updated := aerase st2.updated userID
      counts := aerase st2.counts userID }
  else
    { total := st2.total.map (· - 1)
      updated := aset st2.updated userID now
      counts := aset st2.counts userID (current - 1) }

/-- `getTotalWaitScript`: `SETNX`, bounded sweep, a recompute-from-hash
branch guarded by `GET totalKey == false`, and a clamp of negative totals
to zero.  Returns the reported depth and the resulting state. -/
def getTotalWaitScript (st : WaitState) (ttl : Int) (cleanupLimit : Nat)
    (now : Int) : Int × WaitState :=
  let st2 := waitSweep ttl now cleanupLimit (setnxTotal st)
  let st3 :=
    match st2.total with
    | none => { st2 with total := some (sumVals st2.counts) }
    | some _ => st2
  let result := st3.total.getD 0
  if result < 0 then
    (0, { st3 with total := some 0 })
  else
    (result, st3)

/-- C2: the claimed self-healing of a lost global counter does not happen.
With the global total key absent and one live user holding 2 wait tickets,
`getTotalWaitScript` returns 0 — not the per-user sum 2 — and persists 0:
the `SETNX totalKey 0` at the top of the script creates the key before the
`GET totalKey == false` recompute check, making the recompute branch
unreachable. -/
theorem waitQueue_lost_total_not_recomputed :
    (getTotalWaitScript ⟨none, [("1", 100)], [("1", 2)]⟩ 900 500 100).1 = 0 ∧
    sumVals (WaitState.counts ⟨none, [("1", 100)], [("1", 2)]⟩) = 2 ∧
    (getTotalWaitScript ⟨none, [("1", 100)], [("1", 2)]⟩ 900 500 100).2.total =
      some 0 := by
  refine ⟨?_, ?_, ?_⟩ <;> rfl

/-- The wait-queue ledger invariant over states reachable by its own
operations: the global total mirrors the sum of the per-user counts
(an absent total key standing for zero), every stored per-user count is
positive, and the hash has no duplicate fields. -/
def WaitInv (st : WaitState) : Prop :=
  st.total.getD 0 = sumVals st.counts ∧
  (∀ m ∈ st.counts, 1 ≤ m.2) ∧
  (akeys st.counts).Nodup

/-- Same invariant, with the global total key known to be present (the
situation after the scripts' initial `SETNX`). -/
def StrongWaitInv (st : WaitState) : Prop :=
  st.total = some (sumVals st.counts) ∧
  (∀ m ∈ st.counts, 1 ≤ m.2) ∧
  (akeys st.counts).Nodup

theorem sumVals_nonneg {α : Type} {l : List (α × Int)} (h : ∀ m ∈ l, 1 ≤ m.2) :
    0 ≤ sumVals l := by
  induction l with
  | nil => simp [sumVals_nil]
  | cons m l ih =>
    rw [sumVals_cons]
    have h1 := h m (List.mem_cons_self m l)
    have h2 := ih (fun p hp => h p (List.mem_cons_of_mem m hp))
    omega

theorem setnxTotal_strong {st : WaitState} (h : WaitInv st) :
    StrongWaitInv (setnxTotal st) := by
  obtain ⟨htot, hent, hnod⟩ := h
  exact ⟨by simp [setnxTotal, htot], hent, hnod⟩

theorem waitSweepStep_strong {s : WaitState} (uid : String) (h : StrongWaitInv s) :
    StrongWaitInv (waitSweepStep s uid) := by
  obtain ⟨htot, hent, hnod⟩ := h
  have hsum := sumVals_aerase s.counts uid hnod
  refine ⟨?_, fun m hm => hent m (mem_aerase hm), akeys_aerase_nodup hnod⟩
  cases hl : alookup s.counts uid with
  | none =>
    have hc : (alookup s.counts uid).getD 0 = 0 := by rw [hl]; rfl
    simp only [waitSweepStep, hc]
    rw [if_neg (by omega), htot, hsum, hl]
    simp
  | some v =>
    have hv : 1 ≤ v := hent (uid, v) (alookup_mem hl)
    have hc : (alookup s.counts uid).getD 0 = v := by rw [hl]; rfl
    simp only [waitSweepStep, hc]
    rw [if_pos (by omega), htot, hsum, hl]
    simp

theorem foldl_waitSweepStep_strong (uids : List String) :
    ∀ st : WaitState, StrongWaitInv st →
      StrongWaitInv (uids.foldl waitSweepStep st) := by
  induction uids with
  | nil => intro st h; exact h
  | cons u us ih =>
    intro st h
    exact ih _ (waitSweepStep_strong u h)

theorem waitSweep_strong {st : WaitState} (ttl now : Int) (cleanupLimit : Nat)
    (h : StrongWaitInv st) : StrongWaitInv (waitSweep ttl now cleanupLimit st) :=
  foldl_waitSweepStep_strong _ st h

theorem waitSweepStep_counts_none {s : WaitState} {u : String} (uid : String)
    (h : alookup s.counts u = none) :
    alookup (waitSweepStep s uid).counts u = none := by
  simp only [waitSweepStep]
  rw [alookup_aerase]
  by_cases hu : u = uid <;> simp [hu, h]

theorem foldl_waitSweepStep_counts_none (uids : List String) :
    ∀ s : WaitState, alookup s.counts u = none →
      alookup (uids.foldl waitSweepStep s).counts u = none := by
  induction uids with
  | nil => intro s h; exact h
  | cons v us ih =>
    intro s h
    exact ih _ (waitSweepStep_counts_none v h)

theorem waitSweep_counts_none {st : WaitState} {u : String} (ttl now : Int)
    (cleanupLimit : Nat) (h : alookup st.counts u = none) :
    alookup (waitSweep ttl now cleanupLimit st).counts u = none :=
  foldl_waitSweepStep_counts_none _ st h

theorem decrementWaitScript_strong (st : WaitState) (userID : String) (ttl : Int)
    (cleanupLimit : Nat) (now : Int) (h : WaitInv st) :
    StrongWaitInv (decrementWaitScript st userID ttl cleanupLimit now) := by
  have h2 : StrongWaitInv (waitSweep ttl now cleanupLimit (setnxTotal st)) :=
    waitSweep_strong ttl now cleanupLimit (setnxTotal_strong h)
  set st2 := waitSweep ttl now cleanupLimit (setnxTotal st) with hst2
  obtain ⟨htot, hent, hnod⟩ := h2
  simp only [decrementWaitScript, ← hst2]
  by_cases hz : (alookup st2.counts userID).getD 0 ≤ 0
  · rw [if_pos hz]
    exact ⟨htot, hent, hnod⟩
  · rw [if_neg hz]
    have hl : alookup st2.counts userID = some ((alookup st2.counts userID).getD 0) := by
      cases hlk : alookup st2.counts userID with
      | none => rw [hlk] at hz; simp at hz
      | some v => rfl
    set current := (alookup st2.counts userID).getD 0 with hcur
    have hsum := sumVals_aerase st2.counts userID hnod
    by_cases hone : current - 1 ≤ 0
    · rw [if_pos hone]
      refine ⟨?_, fun m hm => hent m (mem_aerase hm), akeys_aerase_nodup hnod⟩
      simp only [htot, Option.map_some']
      rw [hsum, hl]
      simp only [Option.getD_some]
      have : current = 1 := by omega
      rw [this]
    · rw [if_neg hone]
      have hsum' := sumVals_aset st2.counts userID (current - 1) hnod
      refine ⟨?_, ?_, akeys_aset_nodup hnod⟩
      · simp only [htot, Option.map_some']
        rw [hsum', hl]
        simp only [Option.getD_some]
        ring_nf
      · intro m hm
        rcases mem_aset hm with hm | hm
        · exact hent m hm
        · subst hm; simp only; omega

/-- C5: the wait-queue decrement never goes below zero.  Over any state
satisfying the ledger invariant: a user whose count is absent stays
absent, and after the decrement both the user's count and the global wait
total are still nonnegative. -/
theorem waitQueue_decrement_safe (st : WaitState) (userID : String) (ttl : Int)
    (cleanupLimit : Nat) (now : Int) (hinv : WaitInv st) :
    (alookup st.counts userID = none →
      alookup (decrementWaitScript st userID ttl cleanupLimit now).counts userID
        = none) ∧
    0 ≤ (alookup (decrementWaitScript st userID ttl cleanupLimit now).counts
          userID).getD 0 ∧
    0 ≤ ((decrementWaitScript st userID ttl cleanupLimit now).total).getD 0 := by
  have hstrong := decrementWaitScript_strong st userID ttl cleanupLimit now hinv
  obtain ⟨htot, hent, _⟩ := hstrong
  refine ⟨?_, ?_, ?_⟩
  · intro hnone
    have hsweep : alookup
        (waitSweep ttl now cleanupLimit (setnxTotal st)).counts userID = none :=
      waitSweep_counts_none ttl now cleanupLimit (by simpa [setnxTotal] using hnone)
    simp only [decrementWaitScript]
    rw [hsweep]
    simp only [Option.getD_none]
    rw [if_pos (by omega : (0 : Int) ≤ 0)]
    exact hsweep
  · cases hlk : alookup
        (decrementWaitScript st userID ttl cleanupLimit now).counts userID with
    | none => simp
    | some v =>
      have := hent (userID, v) (alookup_mem hlk)
      simp only [Option.getD_some]
      omega
  · rw [htot]
    simpa using sumVals_nonneg hent

theorem waitQueue_decrement_safe_witness :
    WaitInv ⟨some 1, [("1", 100)], [("1", 1)]⟩ ∧
    (alookup (WaitState.counts ⟨some 1, [("1", 100)], [("1", 1)]⟩) "2" = none →
      alookup (decrementWaitScript ⟨some 1, [("1", 100)], [("1", 1)]⟩ "2"
        900 200 100).counts "2" = none) ∧
    0 ≤ (alookup (decrementWaitScript ⟨some 1, [("1", 100)], [("1", 1)]⟩ "2"
          900 200 100).counts "2").getD 0 ∧
    0 ≤ ((decrementWaitScript ⟨some 1, [("1", 100)], [("1", 1)]⟩ "2"
          900 200 100).total).getD 0 :=
  ⟨⟨by decide, by decide, by decide⟩,
   waitQueue_decrement_safe ⟨some 1, [("1", 100)], [("1", 1)]⟩ "2" 900 200 100
     ⟨by decide, by decide, by decide⟩⟩

/-! ## Circuit Breaker (`internal/service/circuit_breaker.go`)

Process-local per-account failure tracking.  Go's `map[int64]int` /
`map[int64]time.Time` become association lists over `Int` account IDs;
`time.Time` / `time.Duration` become integer seconds, with `time.Now()` /
`time.Since` passed in as the `now` argument.  `IsOpen` takes only a read
lock and performs no writes, so it returns the state unchanged alongside
its boolean. -/

structure CircuitBreaker where
  failureCount : List (Int × Nat)
  lastFailTime : List (Int × Int)
  threshold : Nat
  resetTimeout : Int
deriving DecidableEq

def NewCircuitBreaker : CircuitBreaker :=
  { failureCount := []
    lastFailTime := []
    threshold := 5
    resetTimeout := 300 }

/-- `RecordFailure`: stale-failure forgiveness (reset when the previous
failure is at least `resetTimeout` old), then increment the count and
stamp the failure time. -/
def CircuitBreaker.RecordFailure (cb : CircuitBreaker) (accountID now : Int) :
    CircuitBreaker :=
  let cb1 :=
    match alookup cb.lastFailTime accountID with
    | some lastFail =>
      if cb.resetTimeout ≤ now - lastFail then
        { cb with
          failureCount := aerase cb.failureCount accountID
          lastFailTime := aerase cb.lastFailTime accountID }
      else cb
    | none => cb
  { cb1 with
    failureCount :=
      aset cb1.failureCount accountID ((alookup cb1.failureCount accountID).getD 0 + 1)
    lastFailTime := aset cb1.lastFailTime accountID now }

/-- `IsOpen`: true iff a failure record exists, its last failure is more
recent than `resetTimeout`, and the count has reached the threshold.
Read-only (the stale case defers cleanup to a later mutation). -/
def CircuitBreaker.IsOpen (cb : CircuitBreaker) (accountID now : Int) :
    Bool × CircuitBreaker :=
  match alookup cb.failureCount accountID with
  | none => (false, cb)
  | some count =>
    match alookup cb.lastFailTime accountID with
    | none => (false, cb)
    | some lastFail =>
      if cb.resetTimeout ≤ now - lastFail then
        (false, cb)
      else
        (decide (cb.threshold ≤ count), cb)

/-- `RecordSuccess`: drop the account's record entirely (if present). -/
def CircuitBreaker.RecordSuccess (cb : CircuitBreaker) (accountID : Int) :
    CircuitBreaker :=
  match alookup cb.failureCount accountID with
  | none => cb
  | some _ =>
    { cb with
      failureCount := aerase cb.failureCount accountID
      lastFailTime := aerase cb.lastFailTime accountID }

/-- A sequence of `RecordFailure` calls at the given times. -/
def CircuitBreaker.RecordFailures (cb : CircuitBreaker) (accountID : Int)
    (times : List Int) : CircuitBreaker :=
  times.foldl (fun s t => s.RecordFailure accountID t) cb

theorem RecordFailure_fields (cb : CircuitBreaker) (a now : Int) :
    (cb.RecordFailure a now).threshold = cb.threshold ∧
    (cb.RecordFailure a now).resetTimeout = cb.resetTimeout := by
  unfold CircuitBreaker.RecordFailure
  cases alookup cb.lastFailTime a with
  | none => exact ⟨rfl, rfl⟩
  | some lastFail =>
    by_cases h : cb.resetTimeout ≤ now - lastFail <;> simp [h]

theorem RecordFailure_fresh (cb : CircuitBreaker) (a now : Int)
    (hfc : alookup cb.failureCount a = none)
    (hlf : alookup cb.lastFailTime a = none) :
    alookup (cb.RecordFailure a now).failureCount a = some 1 ∧
    alookup (cb.RecordFailure a now).lastFailTime a = some now := by
  unfold CircuitBreaker.RecordFailure
  rw [hlf]
  simp only
  rw [hfc]
  simp only [Option.getD_none, Nat.zero_add]
  exact ⟨alookup_aset_self _ _ _, alookup_aset_self _ _ _⟩

theorem RecordFailure_recent (cb : CircuitBreaker) (a now t : Int) (k : Nat)
    (hfc : alookup cb.failureCount a = some k)
    (hlf : alookup cb.lastFailTime a = some t)
    (hrecent : now - t < cb.resetTimeout) :
    alookup (cb.RecordFailure a now).failureCount a = some (k + 1) ∧
    alookup (cb.RecordFailure a now).lastFailTime a = some now := by
  unfold CircuitBreaker.RecordFailure
  rw [hlf]
  simp only
  rw [if_neg (by omega)]
  rw [hfc]
  simp only [Option.getD_some]
  exact ⟨alookup_aset_self _ _ _, alookup_aset_self _ _ _⟩

theorem RecordFailures_chain (a T : Int) (ts : List Int) :
    ∀ (cb : CircuitBreaker) (k : Nat) (t0 : Int),
    cb.resetTimeout = T →
    alookup cb.failureCount a = some k →
    alookup cb.lastFailTime a = some t0 →
    List.Chain (fun x y => y - x < T) t0 ts →
    alookup (cb.RecordFailures a ts).failureCount a = some (k + ts.length) ∧
    alookup (cb.RecordFailures a ts).lastFailTime a = some (ts.getLastD t0) ∧
    (cb.RecordFailures a ts).threshold = cb.threshold ∧
    (cb.RecordFailures a ts).resetTimeout = T := by
  induction ts with
  | nil =>
    intro cb k t0 hT hfc hlf _
    exact ⟨by simpa using hfc, by simpa [CircuitBreaker.RecordFailures] using hlf,
      rfl, hT⟩
  | cons t ts ih =>
    intro cb k t0 hT hfc hlf hchain
    rcases hchain with _ | ⟨hgap, hchain⟩
    have hstep := RecordFailure_recent cb a t t0 k hfc hlf (hT ▸ hgap)
    have hfields := RecordFailure_fields cb a t
    have hrec := ih (cb.RecordFailure a t) (k + 1) t
      (hfields.2.trans hT) hstep.1 hstep.2 hchain
    have hfold : cb.RecordFailures a (t :: ts) =
        (cb.RecordFailure a t).RecordFailures a ts := rfl
    rw [hfold]
    refine ⟨?_, ?_, ?_, hrec.2.2.2⟩
    · rw [hrec.1]; congr 1; simp [List.length_cons]; omega
    · rw [hrec.2.1, List.getLastD_cons]
    · rw [hrec.2.2.1, hfields.1]

/-- C3: the circuit-breaker open condition.  (1) `IsOpen` is true iff a
recorded failure count reaches the threshold and the last failure is more
recent than `resetTimeout`; (2) starting closed, after a run of
consecutive non-stale failures (each within `resetTimeout` of the
previous) `IsOpen` at the time of the last failure is true exactly when
the run's length has reached the threshold — so the threshold-th failure
is the one that flips it; (3) once `resetTimeout` has elapsed since the
last failure, `IsOpen` is false with no explicit reset; (4) after
`RecordSuccess` the account reads closed immediately. -/
theorem circuitBreaker_open_iff (t0 a : Int) (ts : List Int)
    (hchain : List.Chain (fun x y => y - x < NewCircuitBreaker.resetTimeout) t0 ts) :
    (∀ (cb : CircuitBreaker) (b now : Int),
      (cb.IsOpen b now).1 = true ↔
        ∃ (c : Nat) (t : Int), alookup cb.failureCount b = some c ∧
          alookup cb.lastFailTime b = some t ∧
          cb.threshold ≤ c ∧ now - t < cb.resetTimeout) ∧
    ((NewCircuitBreaker.RecordFailures a (t0 :: ts)).IsOpen a (ts.getLastD t0)).1 =
      decide (NewCircuitBreaker.threshold ≤ ts.length + 1) ∧
    (∀ (cb : CircuitBreaker) (b now t : Int),
      alookup cb.lastFailTime b = some t → cb.resetTimeout ≤ now - t →
      (cb.IsOpen b now).1 = false) ∧
    (∀ (cb : CircuitBreaker) (b : Int) (now : Int),
      ((cb.RecordSuccess b).IsOpen b now).1 = false) := by
  refine ⟨?_, ?_, ?_, ?_⟩
  · intro cb b now
    unfold CircuitBreaker.IsOpen
    cases hfc : alookup cb.failureCount b with
    | none => simp [hfc]
    | some c =>
      cases hlf : alookup cb.lastFailTime b with
      | none => simp
      | some t =>
        show (if cb.resetTimeout ≤ now - t then (false, cb)
          else (decide (cb.threshold ≤ c), cb)).1 = true ↔ _
        by_cases hstale : cb.resetTimeout ≤ now - t
        · rw [if_pos hstale]
          constructor
          · intro h
            exact absurd h (by simp)
          · rintro ⟨c', t', hc', ht', _, hrecent⟩
            cases hc'
            cases ht'
            omega
        · rw [if_neg hstale]
          constructor
          · intro h
            exact ⟨c, t, rfl, rfl, by simpa using h, by omega⟩
          · rintro ⟨c', t', hc', ht', hth, _⟩
            cases hc'
            cases ht'
            simpa using hth
  · have hstep := RecordFailure_fresh NewCircuitBreaker a t0 rfl rfl
    have hfields := RecordFailure_fields NewCircuitBreaker a t0
    have hrec := RecordFailures_chain a NewCircuitBreaker.resetTimeout ts
      (NewCircuitBreaker.RecordFailure a t0) 1 t0 hfields.2 hstep.1 hstep.2 hchain
    have hfold : NewCircuitBreaker.RecordFailures a (t0 :: ts) =
        (NewCircuitBreaker.RecordFailure a t0).RecordFailures a ts := rfl
    rw [hfold]
    unfold CircuitBreaker.IsOpen
    rw [hrec.1, hrec.2.1]
    show (if ((NewCircuitBreaker.RecordFailure a t0).RecordFailures a ts).resetTimeout ≤
        ts.getLastD t0 - ts.getLastD t0 then _
      else (decide (((NewCircuitBreaker.RecordFailure a t0).RecordFailures a ts).threshold ≤
        1 + ts.length), _)).1 = _
    rw [hrec.2.2.2, if_neg (by norm_num [NewCircuitBreaker])]
    rw [hrec.2.2.1, hfields.1, Nat.add_comm 1 ts.length]
  · intro cb b now t hlf hstale
    unfold CircuitBreaker.IsOpen
    cases hfc : alookup cb.failureCount b with
    | none => rfl
    | some c =>
      rw [hlf]
      show (if cb.resetTimeout ≤ now - t then ((false, cb) : Bool × CircuitBreaker)
        else (decide (cb.threshold ≤ c), cb)).1 = false
      rw [if_pos hstale]
  · intro cb b now
    unfold CircuitBreaker.RecordSuccess
    cases hfc : alookup cb.failureCount b with
    | none =>
      unfold CircuitBreaker.IsOpen
      rw [hfc]
    | some c =>
      unfold CircuitBreaker.IsOpen
      show (match alookup (aerase cb.failureCount b) b with
        | none => ((false, _) : Bool × CircuitBreaker)
        | some count => _).1 = false
      rw [show alookup (aerase cb.failureCount b) b = none by
        rw [alookup_aerase]; simp]

theorem circuitBreaker_open_iff_witness :
    ((NewCircuitBreaker.RecordFailures 1 (0 :: [0, 0, 0, 0])).IsOpen 1
      ([0, 0, 0, 0].getLastD 0)).1 = true ∧
    ((NewCircuitBreaker.RecordFailures 1 (0 :: [0, 0, 0])).IsOpen 1
      ([0, 0, 0].getLastD 0)).1 = false := by
  have h5 := (circuitBreaker_open_iff 0 1 [0, 0, 0, 0]
    (by refine List.Chain.cons ?_ (List.Chain.cons ?_ (List.Chain.cons ?_
      (List.Chain.cons ?_ List.Chain.nil))) <;> norm_num [NewCircuitBreaker])).2.1
  have h4 := (circuitBreaker_open_iff 0 1 [0, 0, 0]
    (by refine List.Chain.cons ?_ (List.Chain.cons ?_
      (List.Chain.cons ?_ List.Chain.nil)) <;> norm_num [NewCircuitBreaker])).2.1
  exact ⟨by rw [h5]; decide, by rw [h4]; decide⟩

/-- C10: `IsOpen` is read-only.  For every breaker state and account —
including a stale entry whose `resetTimeout` has already elapsed —
`IsOpen` returns the state unchanged: the stale entry stays in both maps
(and merely reads as closed).  The stale entry is removed (reset to a
fresh count of 1) only by a later `RecordFailure`, or deleted entirely by
`RecordSuccess`. -/
theorem circuitBreaker_isOpen_readonly (cb : CircuitBreaker) (a now t : Int) (c : Nat)
    (hfc : alookup cb.failureCount a = some c)
    (hlf : alookup cb.lastFailTime a = some t)
    (hstale : cb.resetTimeout ≤ now - t) :
    (∀ (cb' : CircuitBreaker) (b m : Int), (cb'.IsOpen b m).2 = cb') ∧
    (cb.IsOpen a now).1 = false ∧
    alookup ((cb.IsOpen a now).2).failureCount a = some c ∧
    alookup ((cb.IsOpen a now).2).lastFailTime a = some t ∧
    alookup (cb.RecordFailure a now).failureCount a = some 1 ∧
    alookup (cb.RecordSuccess a).failureCount a = none ∧
    alookup (cb.RecordSuccess a).lastFailTime a = none := by
  have hframe : ∀ (cb' : CircuitBreaker) (b m : Int), (cb'.IsOpen b m).2 = cb' := by
    intro cb' b m
    unfold CircuitBreaker.IsOpen
    cases alookup cb'.failureCount b with
    | none => rfl
    | some c' =>
      cases alookup cb'.lastFailTime b with
      | none => rfl
      | some t' =>
        by_cases h : cb'.resetTimeout ≤ m - t' <;> simp [h]
  have hclosed : (cb.IsOpen a now).1 = false := by
    unfold CircuitBreaker.IsOpen
    rw [hfc, hlf]
    show (if cb.resetTimeout ≤ now - t then ((false, cb) : Bool × CircuitBreaker)
      else (decide (cb.threshold ≤ c), cb)).1 = false
    rw [if_pos hstale]
  have hfail : alookup (cb.RecordFailure a now).failureCount a = some 1 := by
    unfold CircuitBreaker.RecordFailure
    rw [hlf]
    show alookup (aset (if cb.resetTimeout ≤ now - t then
        ({ cb with
           failureCount := aerase cb.failureCount a
           lastFailTime := aerase cb.lastFailTime a } : CircuitBreaker)
      else cb).failureCount a
      ((alookup (if cb.resetTimeout ≤ now - t then
        ({ cb with
           failureCount := aerase cb.failureCount a
           lastFailTime := aerase cb.lastFailTime a } : CircuitBreaker)
      else cb).failureCount a).getD 0 + 1)) a = some 1
    rw [if_pos hstale]
    have herased : alookup (aerase cb.failureCount a) a = none := by
      rw [alookup_aerase]; simp
    rw [herased]
    simpa using alookup_aset_self (aerase cb.failureCount a) a 1
  have hsucc : alookup (cb.RecordSuccess a).failureCount a = none ∧
      alookup (cb.RecordSuccess a).lastFailTime a = none := by
    unfold CircuitBreaker.RecordSuccess
    rw [hfc]
    constructor <;> (rw [alookup_aerase]; simp)
  exact ⟨hframe, hclosed, by rw [hframe]; exact hfc, by rw [hframe]; exact hlf,
    hfail, hsucc.1, hsucc.2⟩

theorem circuitBreaker_isOpen_readonly_witness :
    ((CircuitBreaker.IsOpen ⟨[(1, 7)], [(1, 0)], 5, 300⟩ 1 1000).2 =
      (⟨[(1, 7)], [(1, 0)], 5, 300⟩ : CircuitBreaker)) ∧
    (CircuitBreaker.IsOpen ⟨[(1, 7)], [(1, 0)], 5, 300⟩ 1 1000).1 = false ∧
    alookup (CircuitBreaker.RecordFailure ⟨[(1, 7)], [(1, 0)], 5, 300⟩ 1
      1000).failureCount 1 = some 1 ∧
    alookup (CircuitBreaker.RecordSuccess ⟨[(1, 7)], [(1, 0)], 5, 300⟩
      1).failureCount 1 = none :=
  have h := circuitBreaker_isOpen_readonly ⟨[(1, 7)], [(1, 0)], 5, 300⟩ 1 1000 0 7
    (by decide) (by decide) (by decide)
  ⟨h.1 _ _ _, h.2.1, h.2.2.2.2.1, h.2.2.2.2.2.1⟩

/-! ## Atomic scheduler (`atomic_scheduler.go` + `atomic_select.lua`)

The selector reads per-account concurrency from the `account_concurrency`
hash, scores each candidate (`priority*0.5 + loadRate*0.3 + random*0.2`,
lower wins), sorts, and reserves the first candidate still below its
maximum by `HINCRBY` plus a `slot:{id}:{requestID}` marker with TTL.
`math.random()` draws are passed in as an explicit `jitter` function
(the i-th candidate gets `jitter i`); Lua's floating-point score
arithmetic is modelled over `ℚ`. -/

structure AccountCandidate where
  id : Int
  priority : Int
  maxConcurrency : Int
deriving DecidableEq

/-- The shared Redis state seen by both admission primitives: the Slot
Ledger's per-account sorted sets (`concurrency:account:{id}` keys), the
Candidate Selector's `account_concurrency` hash (an absent field reads as
0, so the hash is a total function), and the selector's
`slot:{accountID}:{requestID}` marker keys holding their TTL. -/
structure RedisState where
  slotSets : Int → SlotSet
  acctConcurrency : Int → Int
  slotMarkers : Int → String → Option Int

def initialRedisState : RedisState :=
  { slotSets := fun _ => emptySlotSet
    acctConcurrency := fun _ => 0
    slotMarkers := fun _ _ => none }

/-- `concurrencyCache.AcquireAccountSlot`: run `acquireScript` against the
account's membership set. -/
def AcquireAccountSlot (st : RedisState) (accountID maxConcurrency ttl : Int)
    (requestID : String) (now : Int) : Bool × RedisState :=
  let r := acquireScript (st.slotSets accountID) maxConcurrency ttl requestID now
  (r.1,
   { st with slotSets := fun i => if i = accountID then r.2 else st.slotSets i })

/-- `concurrencyCache.ReleaseAccountSlot`: `ZREM` on the account's set. -/
def ReleaseAccountSlot (st : RedisState) (accountID : Int) (requestID : String) :
    RedisState :=
  { st with
    slotSets := fun i =>
      if i = accountID then releaseSlot (st.slotSets i) requestID
      else st.slotSets i }

/-- `concurrencyCache.GetAccountConcurrency` (the Slot Ledger count):
run `getCountScript` against the account's membership set. -/
def GetAccountConcurrencySlots (st : RedisState) (accountID ttl now : Int) :
    Nat × RedisState :=
  let r := getCountScript (st.slotSets accountID) ttl now
  (r.1,
   { st with slotSets := fun i => if i = accountID then r.2 else st.slotSets i })

/-- `AtomicScheduler.GetAccountConcurrency`: a plain `HGET` of the
`account_concurrency` hash (absent field = 0). -/
def GetAccountConcurrencyHash (st : RedisState) (accountID : Int) : Int :=
  st.acctConcurrency accountID

/-- One scored candidate as built in phase 1 of `atomic_select.lua`. -/
structure ScoredCandidate where
  id : Int
  score : ℚ
  current : Int
  maxConcurrency : Int

/-- Phase 1 of `atomic_select.lua`: read each candidate's current count
from the `account_concurrency` hash and compute its score.  (`ℚ` division
by zero is 0 where Lua floats would give ±inf/nan for
`maxConcurrency = 0`; this only affects the sort order, and the theorems
below hold for every jitter choice, hence for every order.) -/
def scoreCandidates (st : RedisState) (jitter : Nat → ℚ) :
    Nat → List AccountCandidate → List ScoredCandidate
  | _, [] => []
  | i, c :: cs =>
    let current := st.acctConcurrency c.id
    let loadRate : ℚ := (current : ℚ) / (c.maxConcurrency : ℚ)
    { id := c.id
      score := (c.priority : ℚ) * (0.5 : ℚ) + loadRate * (0.3 : ℚ) +
        jitter i * (0.2 : ℚ)
      current := current
      maxConcurrency := c.maxConcurrency } :: scoreCandidates st jitter (i + 1) cs

/-- Phase 2: `table.sort(candidates, function(a, b) return a.score < b.score end)`. -/
def sortByScore (l : List ScoredCandidate) : List ScoredCandidate :=
  List.insertionSort (fun a b => a.score < b.score) l

/-- Phase 3: walk the sorted list and reserve the first candidate whose
current count is below its maximum (`HINCRBY` + `SETEX` of the marker);
`{0, 0}` when every candidate is saturated. -/
def selectLoop (st : RedisState) (requestID : String) (timeout : Int) :
    List ScoredCandidate → (Int × Int) × RedisState
  | [] => ((0, 0), st)
  | c :: rest =>
    if c.current < c.maxConcurrency then
      ((c.id, c.current + 1),
       { st with
         acctConcurrency := fun i =>
           if i = c.id then st.acctConcurrency i + 1 else st.acctConcurrency i
         slotMarkers := fun i r =>
           if i = c.id ∧ r = requestID then some timeout else st.slotMarkers i r })
    else selectLoop st requestID timeout rest

/-- The whole `atomic_select.lua` script. -/
def atomicSelectScript (st : RedisState) (candidates : List AccountCandidate)
    (requestID : String) (timeout : Int) (jitter : Nat → ℚ) :
    (Int × Int) × RedisState :=
  selectLoop st requestID timeout (sortByScore (scoreCandidates st jitter 0 candidates))

/-- The release handle built by `SelectAndAcquireAccountSlot`:
`HINCRBY account_concurrency {id} -1`, then `DEL slot:{id}:{requestID}`. -/
def releaseFunc (accountID : Int) (requestID : String) (st : RedisState) : RedisState :=
  { st with
    acctConcurrency := fun i =>
      if i = accountID then st.acctConcurrency i - 1 else st.acctConcurrency i
    slotMarkers := fun i r =>
      if i = accountID ∧ r = requestID then none else st.slotMarkers i r }

/-- `AtomicScheduler.SelectAndAcquireAccountSlot`: reject an empty
candidate list before any store round trip, run the script, and map the
`{0, 0}` sentinel to a nil release handle (the `Bool` records whether a
release handle was returned). -/
def SelectAndAcquireAccountSlot (st : RedisState) (candidates : List AccountCandidate)
    (requestID : String) (timeout : Int) (jitter : Nat → ℚ) :
    Except String (Int × Int × Bool) × RedisState :=
  if candidates = [] then
    (Except.error "no candidates provided", st)
  else
    let r := atomicSelectScript st candidates requestID timeout jitter
    if r.1.1 = 0 then
      (Except.ok (0, 0, false), r.2)
    else
      (Except.ok (r.1.1, r.1.2, true), r.2)

theorem selectLoop_slotSets (requestID : String) (timeout : Int) :
    ∀ (l : List ScoredCandidate) (st : RedisState),
      (selectLoop st requestID timeout l).2.slotSets = st.slotSets := by
  intro l
  induction l with
  | nil => intro st; rfl
  | cons c rest ih =>
    intro st
    unfold selectLoop
    by_cases h : c.current < c.maxConcurrency
    · rw [if_pos h]
    · rw [if_neg h]; exact ih st

theorem mem_scoreCandidates (st : RedisState) (jitter : Nat → ℚ) :
    ∀ (cs : List AccountCandidate) (i : Nat) (s : ScoredCandidate),
      s ∈ scoreCandidates st jitter i cs →
      ∃ c ∈ cs, s.id = c.id ∧ s.current = st.acctConcurrency c.id ∧
        s.maxConcurrency = c.maxConcurrency := by
  intro cs
  induction cs with
  | nil => intro i s h; simp [scoreCandidates] at h
  | cons c rest ih =>
    intro i s h
    unfold scoreCandidates at h
    rcases List.mem_cons.mp h with h | h
    · exact ⟨c, List.mem_cons_self c rest, by subst h; exact ⟨rfl, rfl, rfl⟩⟩
    · rcases ih (i + 1) s h with ⟨c', hc', hprops⟩
      exact ⟨c', List.mem_cons_of_mem c hc', hprops⟩

theorem mem_sortByScore {l : List ScoredCandidate} {s : ScoredCandidate}
    (h : s ∈ sortByScore l) : s ∈ l := by
  unfold sortByScore at h
  exact (List.perm_insertionSort _ l).mem_iff.mp h

theorem selectLoop_all_saturated (requestID : String) (timeout : Int) :
    ∀ (l : List ScoredCandidate) (st : RedisState),
      (∀ c ∈ l, c.maxConcurrency ≤ c.current) →
      selectLoop st requestID timeout l = ((0, 0), st) := by
  intro l
  induction l with
  | nil => intro st _; rfl
  | cons c rest ih =>
    intro st hsat
    unfold selectLoop
    rw [if_neg (by have := hsat c (List.mem_cons_self c rest); omega)]
    exact ih st (fun c' hc' => hsat c' (List.mem_cons_of_mem c hc'))

theorem selectLoop_skips_saturated (requestID : String) (timeout a : Int)
    (ha : a ≠ 0) :
    ∀ (l : List ScoredCandidate) (st : RedisState),
      (∀ c ∈ l, c.id = a → c.maxConcurrency ≤ c.current) →
      (selectLoop st requestID timeout l).1.1 ≠ a ∧
      (selectLoop st requestID timeout l).2.acctConcurrency a = st.acctConcurrency a := by
  intro l
  induction l with
  | nil => intro st _; exact ⟨fun h => ha h.symm, rfl⟩
  | cons c rest ih =>
    intro st hsat
    unfold selectLoop
    by_cases h : c.current < c.maxConcurrency
    · rw [if_pos h]
      have hid : c.id ≠ a := by
        intro hca
        have := hsat c (List.mem_cons_self c rest) hca
        omega
      refine ⟨hid, ?_⟩
      simp only
      rw [if_neg (fun hc => hid hc.symm)]
    · rw [if_neg h]
      exact ih st (fun c' hc' => hsat c' (List.mem_cons_of_mem c hc'))

/-- C8: saturated candidates are never selected.  For every candidate
list, jitter draw (hence every sort order) and account `a` (0 is the
"no account" sentinel, not an account), if every candidate for `a` is at
or above its maximum, the script never returns `a` and never increments
`a`'s counter. -/
theorem saturated_never_selected (st : RedisState)
    (candidates : List AccountCandidate) (requestID : String) (timeout : Int)
    (jitter : Nat → ℚ) (a : Int)
    (ha : a ≠ 0)
    (hsat : ∀ c ∈ candidates, c.id = a →
      c.maxConcurrency ≤ st.acctConcurrency c.id) :
    (atomicSelectScript st candidates requestID timeout jitter).1.1 ≠ a ∧
    (atomicSelectScript st candidates requestID timeout jitter).2.acctConcurrency a =
      st.acctConcurrency a := by
  unfold atomicSelectScript
  apply selectLoop_skips_saturated requestID timeout a ha
  intro s hs hsa
  rcases mem_scoreCandidates st jitter candidates 0 s (mem_sortByScore hs) with
    ⟨c, hc, hid, hcur, hmax⟩
  rw [hmax, hcur]
  exact hsat c hc (hid.symm.trans hsa)

theorem saturated_never_selected_witness :
    (atomicSelectScript initialRedisState
      [⟨1, 1, 0⟩, ⟨2, 1, 5⟩] "r" 60 (fun _ => 0)).1.1 ≠ 1 ∧
    (atomicSelectScript initialRedisState
      [⟨1, 1, 0⟩, ⟨2, 1, 5⟩] "r" 60 (fun _ => 0)).2.acctConcurrency 1 =
      initialRedisState.acctConcurrency 1 :=
  saturated_never_selected initialRedisState [⟨1, 1, 0⟩, ⟨2, 1, 5⟩] "r" 60
    (fun _ => 0) 1 (by decide) (by decide)

/-- C9: the all-saturated sentinel.  With a nonempty candidate list in
which every candidate's current count is at or above its maximum, the
scheduler returns the sentinel `(0, 0)` with a nil error and a nil
release handle, and leaves the store untouched (no counter incremented,
no marker created). -/
theorem selectAndAcquire_all_saturated (st : RedisState)
    (candidates : List AccountCandidate) (requestID : String) (timeout : Int)
    (jitter : Nat → ℚ)
    (hne : candidates ≠ [])
    (hsat : ∀ c ∈ candidates, c.maxConcurrency ≤ st.acctConcurrency c.id) :
    SelectAndAcquireAccountSlot st candidates requestID timeout jitter =
      (Except.ok (0, 0, false), st) := by
  have hscript : atomicSelectScript st candidates requestID timeout jitter =
      ((0, 0), st) := by
    unfold atomicSelectScript
    apply selectLoop_all_saturated
    intro s hs
    rcases mem_scoreCandidates st jitter candidates 0 s (mem_sortByScore hs) with
      ⟨c, hc, _, hcur, hmax⟩
    rw [hmax, hcur]
    exact hsat c hc
  simp only [SelectAndAcquireAccountSlot]
  rw [if_neg hne, hscript]
  rfl

theorem selectAndAcquire_all_saturated_witness :
    SelectAndAcquireAccountSlot initialRedisState [⟨1, 1, 0⟩, ⟨2, 2, 0⟩] "r" 60
      (fun _ => 0) = (Except.ok (0, 0, false), initialRedisState) :=
  selectAndAcquire_all_saturated initialRedisState [⟨1, 1, 0⟩, ⟨2, 2, 0⟩] "r" 60
    (fun _ => 0) (by decide) (by decide)

/-- C6: the two admission primitives are disjoint stores of truth.  Slot
Ledger operations (`AcquireAccountSlot` / `ReleaseAccountSlot` on the
`concurrency:account:{id}` membership sets) never change the
`account_concurrency` hash read by the Candidate Selector, and the
selector script / its release handle never change the membership sets nor
the cardinality the Slot Ledger's count operation reports. -/
theorem admission_primitives_disjoint (st : RedisState)
    (accountID maxC ttl now timeout : Int) (requestID : String)
    (candidates : List AccountCandidate) (jitter : Nat → ℚ) :
    (AcquireAccountSlot st accountID maxC ttl requestID now).2.acctConcurrency =
      st.acctConcurrency ∧
    (ReleaseAccountSlot st accountID requestID).acctConcurrency =
      st.acctConcurrency ∧
    (∀ b, GetAccountConcurrencyHash
        (AcquireAccountSlot st accountID maxC ttl requestID now).2 b =
      GetAccountConcurrencyHash st b) ∧
    (atomicSelectScript st candidates requestID timeout jitter).2.slotSets =
      st.slotSets ∧
    (releaseFunc accountID requestID st).slotSets = st.slotSets ∧
    (∀ b, (GetAccountConcurrencySlots
        (atomicSelectScript st candidates requestID timeout jitter).2 b ttl now).1 =
      (GetAccountConcurrencySlots st b ttl now).1) ∧
    (∀ b, (GetAccountConcurrencySlots (releaseFunc accountID requestID st)
        b ttl now).1 =
      (GetAccountConcurrencySlots st b ttl now).1) := by
  have hsel : (atomicSelectScript st candidates requestID timeout jitter).2.slotSets =
      st.slotSets := by
    unfold atomicSelectScript
    exact selectLoop_slotSets requestID timeout _ st
  refine ⟨rfl, rfl, fun b => rfl, hsel, rfl, fun b => ?_, fun b => rfl⟩
  simp only [GetAccountConcurrencySlots]
  rw [hsel]

/-- C4 (refuted): the release handle is not idempotent.  From a fresh
store, a successful `SelectAndAcquireAccountSlot` on the single candidate
`{id 1, priority 1, max 5}` leaves `account_concurrency[1] = 1`; the
first release invocation brings it to 0 and deletes the slot marker, but
a second invocation decrements the counter again to -1 — only the marker
deletion is a no-op. -/
theorem releaseFunc_double_invoke_not_noop :
    ((SelectAndAcquireAccountSlot initialRedisState [⟨1, 1, 5⟩] "r" 60
        (fun _ => 0)).2).acctConcurrency 1 = 1 ∧
    (releaseFunc 1 "r"
      ((SelectAndAcquireAccountSlot initialRedisState [⟨1, 1, 5⟩] "r" 60
        (fun _ => 0)).2)).acctConcurrency 1 = 0 ∧
    (releaseFunc 1 "r" (releaseFunc 1 "r"
      ((SelectAndAcquireAccountSlot initialRedisState [⟨1, 1, 5⟩] "r" 60
        (fun _ => 0)).2))).acctConcurrency 1 = -1 ∧
    (releaseFunc 1 "r"
      ((SelectAndAcquireAccountSlot initialRedisState [⟨1, 1, 5⟩] "r" 60
        (fun _ => 0)).2)).slotMarkers 1 "r" = none ∧
    (releaseFunc 1 "r" (releaseFunc 1 "r"
      ((SelectAndAcquireAccountSlot initialRedisState [⟨1, 1, 5⟩] "r" 60
        (fun _ => 0)).2))).slotMarkers 1 "r" = none := by
  refine ⟨?_, ?_, ?_, ?_, ?_⟩ <;> rfl
